import Mathlib

/-!
Verification of the `character-range` package: a shallow embedding of
`character_and_byte_map.py` and `string_and_bytes_range.py`.

Symbols (single characters or single bytes) are modelled by their
codepoint / integral value as a `Nat`; strings and bytes objects are
`List Nat` of codepoints.  Machine integers do not occur: Python
integers are unbounded, so `Nat`/`Int` are exact models.
-/

namespace CharacterRange

/-- The element kind of an interval or map: `CharacterInterval`/`CharacterMap`
work on `str` symbols, `ByteInterval`/`ByteMap` on `bytes` symbols. -/
inductive ElementKind where
  | charKind
  | byteKind
deriving DecidableEq

/-- A Python value as far as the membership tests care: an `int`, a `str`
(list of codepoints), a `bytes` object (list of byte values), or any
other object. -/
inductive PyValue where
  | pyInt : Int → PyValue
  | pyStr : List Nat → PyValue
  | pyBytes : List Nat → PyValue
  | pyOther : PyValue
deriving DecidableEq

/-- A single symbol of the given kind, as a length-1 string/bytes value. -/
def mkSingleSymbol : ElementKind → Nat → PyValue
  | .charKind, c => .pyStr [c]
  | .byteKind, c => .pyBytes [c]

/-- `Interval` from `character_and_byte_map.py`: an inclusive interval of
symbols with endpoints `start` and `end` (called `stop` here because `end`
is reserved in Lean), tagged with its element kind. -/
structure Interval where
  kind : ElementKind
  start : Nat
  stop : Nat
deriving DecidableEq

/-- The symbols of an interval, in codepoint order: `Interval.__iter__`
yields `chr(c)` for `c` in `range(ord(start), ord(end) + 1)`. -/
def intervalChars (iv : Interval) : List Nat :=
  List.range' iv.start (iv.stop + 1 - iv.start)

/-- `Interval.__and__` / `Interval.intersects`:
`max(self.start, other.start) <= min(self.end, other.end)`. -/
def intersects (a b : Interval) : Bool :=
  decide (max a.start b.start ≤ min a.stop b.stop)

/-- `Interval.__contains__`: returns `False` when the item is not an
instance of the endpoint type or does not have length 1, and otherwise
tests `self.start <= item <= self.end` (single-symbol comparison is
codepoint comparison). -/
def intervalContains (iv : Interval) (v : PyValue) : Bool :=
  match iv.kind, v with
  | .charKind, .pyStr s =>
      if s.length = 1 then decide (iv.start ≤ s.headD 0 ∧ s.headD 0 ≤ iv.stop) else false
  | .byteKind, .pyBytes s =>
      if s.length = 1 then decide (iv.start ≤ s.headD 0 ∧ s.headD 0 ≤ iv.stop) else false
  | _, _ => false

/-- The chained enumeration of an interval list,
`chain.from_iterable(self._intervals)` in `IndexMap._populate_maps`:
all symbols of all intervals, in interval-list order. -/
def mapChars (ivs : List Interval) : List Nat :=
  (ivs.map intervalChars).flatten

/-- `IndexMap.__len__`: for an eagerly populated map this is the table
size, which (construction having succeeded, hence no duplicate symbols)
equals the length of the chained enumeration; for a lazy map it is the
sum of the interval lengths, which is the same number. -/
def indexMapLen (ivs : List Interval) : Nat :=
  (mapChars ivs).length

/-- Eager-mode `IndexMap._get_index_given_char` (cache hit in the fully
populated table): the position assigned to a symbol while populating,
i.e. its index in the chained enumeration. -/
def symbolToIndex (ivs : List Interval) (c : Nat) : Nat :=
  (mapChars ivs).indexOf c

/-- Eager-mode `IndexMap._get_char_given_index` (cache hit in the fully
populated table): the symbol enumerated at the given position. -/
def indexToSymbol (ivs : List Interval) (i : Nat) : Nat :=
  (mapChars ivs).getD i 0

/-- `IndexMap.__contains__`: non-`int`, non-symbol-kind values are
rejected by the `isinstance` test; an `int` is contained iff
`0 <= item < len(self)`; a candidate symbol is contained iff the
(eager) lookup finds it, wrong-length values failing with a caught
exception, hence `False`. -/
def mapContains (kind : ElementKind) (ivs : List Interval) (v : PyValue) : Bool :=
  match kind, v with
  | _, .pyInt i => decide (0 ≤ i ∧ i < (indexMapLen ivs : Int))
  | .charKind, .pyStr s =>
      if s.length = 1 then decide (s.headD 0 ∈ mapChars ivs) else false
  | .byteKind, .pyBytes s =>
      if s.length = 1 then decide (s.headD 0 ∈ mapChars ivs) else false
  | _, _ => false

/-- The duplicate-insertion scan of `IndexMap._populate_maps`: walking the
chained enumeration left to right, a symbol already inserted (already
`seen`) raises `OverlappingIntervals`. -/
def populateFailsAux (seen : List Nat) : List Nat → Bool
  | [] => false
  | c :: rest => if c ∈ seen then true else populateFailsAux (c :: seen) rest

/-- Whether eager construction of the map fails with
`OverlappingIntervals`, i.e. `_populate_maps` hits a duplicate insertion. -/
def populateMapsFails (ivs : List Interval) : Bool :=
  populateFailsAux [] (mapChars ivs)

/-- `IndexMap._intervals_must_not_overlap` (lazy mode): each interval is
checked for geometric intersection against the previously seen ones;
the scan raises `OverlappingIntervals` iff some pair intersects. -/
def lazyOverlapDetected : List Interval → Bool
  | [] => false
  | iv :: rest => rest.any (fun other => intersects iv other) || lazyOverlapDetected rest

/-- Lazy-mode cache-miss path of `IndexMap._get_index_given_char`: invoke
`lookup_char`, fail with `InvalidIndex` (`none`) unless the result lies
in `[0, len(self))`, else return it. -/
def lazySymbolToIndex (card : Nat) (lookup_char : Nat → Nat) (c : Nat) : Option Nat :=
  if lookup_char c < card then some (lookup_char c) else none

/-- Lazy-mode cache-miss path of `IndexMap._get_char_given_index`: fail
with `IndexError` (`none`) unless the index lies in `[0, len(self))`,
else invoke `lookup_index` and return its (single-symbol) result. -/
def lazyIndexToSymbol (card : Nat) (lookup_index : Nat → Nat) (i : Nat) : Option Nat :=
  if i < card then some (lookup_index i) else none

/-- Python tuple/str/bytes `<`: position-wise lexicographic comparison,
a strict prefix being smaller. -/
def tupleLt : List Nat → List Nat → Bool
  | [], [] => false
  | [], _ :: _ => true
  | _ :: _, [] => false
  | a :: as, b :: bs => if a < b then true else if b < a then false else tupleLt as bs

/-- `_IncrementableIndexCollection.__index__`: the digits (stored
least-significant first) interpreted as a base-`base` integer. -/
def idxVal (base : Nat) : List Nat → Nat
  | [] => 0
  | d :: rest => d + base * idxVal base rest

/-- `_IncrementableIndexCollection.increment` on the stored
least-significant-first digit list: add 1 to the first digit; on
reaching `base`, reset it to 0 and carry; if every digit overflows,
append a new 0 digit at the (most significant) end. -/
def inc (base : Nat) : List Nat → List Nat
  | [] => [0]
  | d :: rest => if d + 1 < base then (d + 1) :: rest else 0 :: inc base rest

/-- `_IncrementableIndexCollection.__lt__` on the stored digit lists:
shorter is smaller; equal lengths compare the most-significant-first
index tuples lexicographically. -/
def colLt (a b : List Nat) : Bool :=
  if a.length < b.length then true
  else a.length == b.length && tupleLt a.reverse b.reverse

/-- `__le__` as derived by `functools.total_ordering` (`lt` or `eq`) for
two collections over the same map, where `__eq__` reduces to equality of
the digit lists. -/
def colLe (a b : List Nat) : Bool :=
  colLt a b || a == b

/-- `_IncrementableIndexCollection`: the digit list is stored inverted
(least-significant first), together with the base. -/
structure IncrementableIndexCollection where
  inverted_indices : List Nat
  base : Nat
deriving DecidableEq

/-- `__len__`: the number of digits currently held. -/
def IncrementableIndexCollection.size (c : IncrementableIndexCollection) : Nat :=
  c.inverted_indices.length

/-- `_indices`: the digits in most-significant-first order. -/
def IncrementableIndexCollection.indices (c : IncrementableIndexCollection) : List Nat :=
  c.inverted_indices.reverse

/-- `__index__` (`int(collection)`). -/
def IncrementableIndexCollection.index (c : IncrementableIndexCollection) : Nat :=
  idxVal c.base c.inverted_indices

/-- `__lt__`. -/
def IncrementableIndexCollection.lt (a b : IncrementableIndexCollection) : Bool :=
  if a.size < b.size then true
  else a.size == b.size && tupleLt a.indices b.indices

/-- `__eq__`: same base and same digits. -/
def IncrementableIndexCollection.eq (a b : IncrementableIndexCollection) : Bool :=
  (a.base == b.base) && (a.indices == b.indices)

/-- `__le__` as filled in by `functools.total_ordering`. -/
def IncrementableIndexCollection.le (a b : IncrementableIndexCollection) : Bool :=
  a.lt b || a.eq b

/-- `increment` (pure version: returns the updated collection). -/
def IncrementableIndexCollection.increment
    (c : IncrementableIndexCollection) : IncrementableIndexCollection :=
  ⟨inc c.base c.inverted_indices, c.base⟩

/-- `_Range._is_valid_endpoint`: non-empty and every symbol contained in
the map. -/
def isValidEndpoint (ivs : List Interval) (v : List Nat) : Bool :=
  decide (0 < v.length) && v.all (fun c => decide (c ∈ mapChars ivs))

/-- `_Range._make_collection`: map each symbol of the endpoint to its
index (in string order), store the digits inverted. -/
def makeCollection (ivs : List Interval) (v : List Nat) : List Nat :=
  (v.map (symbolToIndex ivs)).reverse

/-- The direction test of `_Range.__init__`:
`len(start) > len(end) or (len(start) == len(end) and start > end)`,
where `start > end` is the native lexicographic comparison of the raw
endpoint strings. -/
def directionWrong (start stop : List Nat) : Bool :=
  decide (stop.length < start.length) || (start.length == stop.length && tupleLt stop start)

/-- Whether `_Range.__init__` succeeds: both endpoints valid and the
direction test passes. -/
def rangeInitOk (ivs : List Interval) (start stop : List Nat) : Bool :=
  isValidEndpoint ivs start && isValidEndpoint ivs stop && !(directionWrong start stop)

/-- Whether `_Range.__init__` raises `InvalidRangeDirection`: both
endpoints valid (else `InvalidEndpoints` is raised first) and the
direction test fails. -/
def rangeRaisesInvalidDirection (ivs : List Interval) (start stop : List Nat) : Bool :=
  isValidEndpoint ivs start && isValidEndpoint ivs stop && directionWrong start stop

/-- `_make_element`: render the current collection back to a symbol
string, most significant digit first, via `index_to_symbol`. -/
def renderElement (ivs : List Interval) (inverted : List Nat) : List Nat :=
  inverted.reverse.map (indexToSymbol ivs)

/-- The loop of `_Range.__iter__`: while `current <= end`, yield the
rendered element and increment.  `fuel` bounds the number of loop tests;
the loop has been fully exhausted whenever the result is the same for
every sufficiently large fuel. -/
def rangeIter (ivs : List Interval) : Nat → List Nat → List Nat → List (List Nat)
  | 0, _, _ => []
  | fuel + 1, cur, stop =>
      if colLe cur stop then
        renderElement ivs cur :: rangeIter ivs fuel (inc (indexMapLen ivs) cur) stop
      else []

/-- `sum(base ** width for width in range(lo, hi))` from `_Range.__len__`. -/
def widthSum (base lo hi : Nat) : Nat :=
  ((List.range' lo (hi - lo)).map (fun w => base ^ w)).sum

/-- `_Range.__len__`: the closed-form length, an unbounded (possibly
negative) Python integer. -/
def rangeLen (ivs : List Interval) (start stop : List Nat) : Int :=
  (widthSum (indexMapLen ivs) start.length stop.length : Int)
    + (idxVal (indexMapLen ivs) (makeCollection ivs stop) : Int)
    - (idxVal (indexMapLen ivs) (makeCollection ivs start) : Int)
    + 1

/-- Modelled from the spec: "start is after end" under per-position
comparison of the map-assigned indices of the symbols (the alphabet's
declared order).  The source performs no such comparison; this
definition exists to state the spec's claimed direction check. -/
def specIndexAfter (ivs : List Interval) (start stop : List Nat) : Bool :=
  tupleLt (stop.map (symbolToIndex ivs)) (start.map (symbolToIndex ivs))

/-- `CharacterMap.ASCII_DIGITS`: the single interval `'0'..'9'`
(codepoints 48 through 57). -/
def asciiDigitsIntervals : List Interval :=
  [⟨ElementKind.charKind, 48, 57⟩]

-- Proof devices (not part of the source model).

/-- `geom base n = 1 + base + ... + base^(n-1)`: the number of
digit strings over `base` symbols of length strictly less than `n`
(including the empty string). -/
def geom (base : Nat) : Nat → Nat
  | 0 => 0
  | n + 1 => geom base n + base ^ n

/-- The rank of a digit list in the counter ordering, shifted by one:
`geom base length + value`.  Counters ordered first by length and then
by value have consecutive ranks. -/
def rank (base : Nat) (l : List Nat) : Nat :=
  geom base l.length + idxVal base l

/-- Whether every stored digit equals `base - 1` (the all-overflow
configuration of the odometer). -/
def allMaxDigits (base : Nat) (l : List Nat) : Bool :=
  l.all (fun d => d == base - 1)

-- Arithmetic facts about digit values.

theorem idxVal_append (base : Nat) (l1 l2 : List Nat) :
    idxVal base (l1 ++ l2) = idxVal base l1 + base ^ l1.length * idxVal base l2 := by
  induction l1 with
  | nil => simp [idxVal]
  | cons d rest ih =>
    simp only [List.cons_append, idxVal, List.length_cons, List.append_eq]
    rw [ih]
    ring

theorem val_lt_pow (base : Nat) (l : List Nat) (h : ∀ d ∈ l, d < base) :
    idxVal base l < base ^ l.length := by
  induction l with
  | nil => simp [idxVal]
  | cons d rest ih =>
    have hd : d < base := h d (by simp)
    have hr : idxVal base rest < base ^ rest.length :=
      ih (fun x hx => h x (by simp [hx]))
    simp only [idxVal, List.length_cons]
    calc d + base * idxVal base rest
        < base + base * idxVal base rest := Nat.add_lt_add_right hd _
      _ = base * (idxVal base rest + 1) := by ring
      _ ≤ base * base ^ rest.length := Nat.mul_le_mul (Nat.le_refl _) (by omega)
      _ = base ^ (rest.length + 1) := by rw [pow_succ]; ring

theorem val_inj (base : Nat) (a : List Nat) : ∀ b : List Nat, a.length = b.length →
    (∀ d ∈ a, d < base) → (∀ d ∈ b, d < base) →
    idxVal base a = idxVal base b → a = b := by
  induction a with
  | nil =>
    intro b hlen _ _ _
    cases b with
    | nil => rfl
    | cons x xs => simp at hlen
  | cons d as ih =>
    intro b hlen ha hb hval
    cases b with
    | nil => simp at hlen
    | cons e bs =>
      have hd : d < base := ha d (by simp)
      have he : e < base := hb e (by simp)
      simp only [idxVal] at hval
      have hde : d = e := by
        have h1 := congrArg (· % base) hval
        simp only at h1
        rwa [Nat.add_mul_mod_self_left, Nat.add_mul_mod_self_left,
            Nat.mod_eq_of_lt hd, Nat.mod_eq_of_lt he] at h1
      subst hde
      have hv : idxVal base as = idxVal base bs := by
        have hbpos : 0 < base := by omega
        have h2 : base * idxVal base as = base * idxVal base bs := by omega
        exact Nat.eq_of_mul_eq_mul_left hbpos h2
      have htail : as = bs :=
        ih bs (by simpa using hlen) (fun x hx => ha x (by simp [hx]))
          (fun x hx => hb x (by simp [hx])) hv
      rw [htail]

theorem tupleLt_iff (base : Nat) (xs : List Nat) : ∀ ys : List Nat, xs.length = ys.length →
    (∀ d ∈ xs, d < base) → (∀ d ∈ ys, d < base) →
    (tupleLt xs ys = true ↔ idxVal base xs.reverse < idxVal base ys.reverse) := by
  induction xs with
  | nil =>
    intro ys hlen _ _
    cases ys with
    | nil => simp [tupleLt]
    | cons y ys => simp at hlen
  | cons x xs ih =>
    intro ys hlen hx hy
    cases ys with
    | nil => simp at hlen
    | cons y ys =>
      have hlen' : xs.length = ys.length := by simpa using hlen
      have hx0 : x < base := hx x (by simp)
      have hy0 : y < base := hy y (by simp)
      have hxs : ∀ d ∈ xs, d < base := fun d hd => hx d (by simp [hd])
      have hys : ∀ d ∈ ys, d < base := fun d hd => hy d (by simp [hd])
      have hvx : idxVal base xs.reverse < base ^ ys.length := by
        have := val_lt_pow base xs.reverse (fun d hd => hxs d (List.mem_reverse.mp hd))
        rwa [List.length_reverse, hlen'] at this
      have hvy : idxVal base ys.reverse < base ^ ys.length := by
        have := val_lt_pow base ys.reverse (fun d hd => hys d (List.mem_reverse.mp hd))
        rwa [List.length_reverse] at this
      rw [List.reverse_cons, List.reverse_cons, idxVal_append, idxVal_append]
      simp only [List.length_reverse, idxVal, Nat.mul_zero, Nat.add_zero, hlen']
      rcases Nat.lt_trichotomy x y with h | h | h
      · rw [tupleLt, if_pos h]
        simp only [true_iff]
        calc idxVal base xs.reverse + base ^ ys.length * x
            < base ^ ys.length + base ^ ys.length * x := Nat.add_lt_add_right hvx _
          _ = base ^ ys.length * (x + 1) := by ring
          _ ≤ base ^ ys.length * y := Nat.mul_le_mul (Nat.le_refl _) (by omega)
          _ ≤ idxVal base ys.reverse + base ^ ys.length * y := Nat.le_add_left _ _
      · subst h
        rw [tupleLt, if_neg (by omega), if_neg (by omega)]
        rw [ih ys hlen' hxs hys]
        omega
      · rw [tupleLt, if_neg (by omega), if_pos h]
        simp only [Bool.false_eq_true, false_iff]
        have hgt : idxVal base ys.reverse + base ^ ys.length * y
            < idxVal base xs.reverse + base ^ ys.length * x := by
          calc idxVal base ys.reverse + base ^ ys.length * y
              < base ^ ys.length + base ^ ys.length * y := Nat.add_lt_add_right hvy _
            _ = base ^ ys.length * (y + 1) := by ring
            _ ≤ base ^ ys.length * x := Nat.mul_le_mul (Nat.le_refl _) (by omega)
            _ ≤ idxVal base xs.reverse + base ^ ys.length * x := Nat.le_add_left _ _
        omega

-- Facts about geom and rank.

theorem geom_mono (base : Nat) {m n : Nat} (h : m ≤ n) :
    geom base m ≤ geom base n := by
  induction h with
  | refl => exact Nat.le_refl _
  | step _ ih => exact Nat.le_trans ih (Nat.le_add_right _ _)

theorem rank_lt_geom_succ (base : Nat) (l : List Nat) (h : ∀ d ∈ l, d < base) :
    rank base l < geom base (l.length + 1) := by
  have := val_lt_pow base l h
  simp only [rank, geom]
  omega

theorem geom_le_rank (base : Nat) (l : List Nat) : geom base l.length ≤ rank base l :=
  Nat.le_add_right _ _

theorem rank_lt_of_shorter (base : Nat) (a b : List Nat)
    (ha : ∀ d ∈ a, d < base) (h : a.length < b.length) :
    rank base a < rank base b :=
  calc rank base a < geom base (a.length + 1) := rank_lt_geom_succ base a ha
    _ ≤ geom base b.length := geom_mono base h
    _ ≤ rank base b := geom_le_rank base b

theorem colLt_iff_rank (base : Nat) (a b : List Nat)
    (ha : ∀ d ∈ a, d < base) (hb : ∀ d ∈ b, d < base) :
    (colLt a b = true ↔ rank base a < rank base b) := by
  rcases Nat.lt_trichotomy a.length b.length with h | h | h
  · rw [colLt, if_pos h]
    simp only [true_iff]
    exact rank_lt_of_shorter base a b ha h
  · rw [colLt, if_neg (by omega)]
    have h2 := tupleLt_iff base a.reverse b.reverse
      (by simp [h])
      (fun d hd => ha d (List.mem_reverse.mp hd))
      (fun d hd => hb d (List.mem_reverse.mp hd))
    rw [List.reverse_reverse, List.reverse_reverse] at h2
    simp only [h, beq_self_eq_true, Bool.true_and]
    rw [h2]
    simp only [rank, h]
    omega
  · rw [colLt, if_neg (by omega)]
    have hgt : rank base b < rank base a := rank_lt_of_shorter base b a hb h
    simp only [beq_iff_eq, Bool.and_eq_true]
    constructor
    · intro hcontra
      omega
    · intro hcontra
      omega

theorem rank_inj (base : Nat) (a b : List Nat)
    (ha : ∀ d ∈ a, d < base) (hb : ∀ d ∈ b, d < base)
    (h : rank base a = rank base b) : a = b := by
  rcases Nat.lt_trichotomy a.length b.length with hl | hl | hl
  · have := rank_lt_of_shorter base a b ha hl
    omega
  · have hv : idxVal base a = idxVal base b := by
      simp only [rank, hl] at h
      omega
    exact val_inj base a b hl ha hb hv
  · have := rank_lt_of_shorter base b a hb hl
    omega

theorem colLe_iff_rank (base : Nat) (a b : List Nat)
    (ha : ∀ d ∈ a, d < base) (hb : ∀ d ∈ b, d < base) :
    (colLe a b = true ↔ rank base a ≤ rank base b) := by
  simp only [colLe, Bool.or_eq_true, beq_iff_eq]
  rw [colLt_iff_rank base a b ha hb]
  constructor
  · rintro (h | h)
    · omega
    · subst h
      exact Nat.le_refl _
  · intro h
    rcases Nat.eq_or_lt_of_le h with heq | hlt
    · exact Or.inr (rank_inj base a b ha hb heq)
    · exact Or.inl hlt

-- Facts about increment.

theorem inc_notmax (base : Nat) (l : List Nat) : (∀ d ∈ l, d < base) →
    allMaxDigits base l = false →
    (inc base l).length = l.length ∧ idxVal base (inc base l) = idxVal base l + 1 ∧
    (∀ d ∈ inc base l, d < base) := by
  induction l with
  | nil =>
    intro _ hmax
    simp [allMaxDigits] at hmax
  | cons d rest ih =>
    intro hv hmax
    by_cases hd : d + 1 < base
    · rw [inc, if_pos hd]
      refine ⟨by simp, ?_, ?_⟩
      · simp only [idxVal]
        omega
      · intro x hx
        rcases List.mem_cons.mp hx with hx1 | hx2
        · omega
        · exact hv x (by simp [hx2])
    · have hd0 : d < base := hv d (by simp)
      have hdeq : d = base - 1 := by omega
      have hmax' : allMaxDigits base rest = false := by
        simp only [allMaxDigits, List.all_cons] at hmax
        rcases Bool.and_eq_false_iff.mp hmax with h1 | h1
        · simp [hdeq] at h1
        · exact h1
      obtain ⟨hlen, hval, hvalid⟩ := ih (fun x hx => hv x (by simp [hx])) hmax'
      rw [inc, if_neg hd]
      refine ⟨by simp [hlen], ?_, ?_⟩
      · simp only [idxVal, hval]
        have hexp : base * (idxVal base rest + 1) = base * idxVal base rest + base := by ring
        omega
      · intro x hx
        rcases List.mem_cons.mp hx with hx1 | hx2
        · omega
        · exact hvalid x hx2

theorem inc_allmax (base : Nat) (l : List Nat) : allMaxDigits base l = true →
    inc base l = List.replicate (l.length + 1) 0 := by
  induction l with
  | nil => intro _; rfl
  | cons d rest ih =>
    intro hmax
    simp only [allMaxDigits, List.all_cons, Bool.and_eq_true, beq_iff_eq] at hmax
    obtain ⟨hd, hrest⟩ := hmax
    have hbranch : ¬ (d + 1 < base) := by omega
    rw [inc, if_neg hbranch, ih hrest]
    simp [List.replicate_succ]

theorem val_allmax (base : Nat) (hb : 1 ≤ base) (l : List Nat) :
    allMaxDigits base l = true → idxVal base l + 1 = base ^ l.length := by
  induction l with
  | nil => intro _; simp [idxVal]
  | cons d rest ih =>
    intro hmax
    simp only [allMaxDigits, List.all_cons, Bool.and_eq_true, beq_iff_eq] at hmax
    obtain ⟨hd, hrest⟩ := hmax
    have ihr := ih hrest
    simp only [idxVal, List.length_cons, pow_succ]
    have h1 : base * (idxVal base rest + 1) = base * idxVal base rest + base := by ring
    have h2 : base * (idxVal base rest + 1) = base * base ^ rest.length := by rw [ihr]
    have h3 : base ^ rest.length * base = base * base ^ rest.length := by ring
    omega

theorem val_replicate_zero (base : Nat) (n : Nat) :
    idxVal base (List.replicate n 0) = 0 := by
  induction n with
  | zero => rfl
  | succ n ih => simp [List.replicate_succ, idxVal, ih]

theorem inc_valid (base : Nat) (l : List Nat) (h : ∀ d ∈ l, d < base) (hb : 1 ≤ base) :
    ∀ d ∈ inc base l, d < base := by
  cases hmax : allMaxDigits base l with
  | false => exact (inc_notmax base l h hmax).2.2
  | true =>
    rw [inc_allmax base l hmax]
    intro d hd
    rw [List.eq_of_mem_replicate hd]
    omega

theorem rank_inc (base : Nat) (l : List Nat) (h : ∀ d ∈ l, d < base) :
    rank base (inc base l) = rank base l + 1 := by
  cases hmax : allMaxDigits base l with
  | false =>
    obtain ⟨hlen, hval, _⟩ := inc_notmax base l h hmax
    simp only [rank, hlen, hval]
    omega
  | true =>
    rw [inc_allmax base l hmax]
    cases l with
    | nil => simp [rank, geom, idxVal, List.replicate]
    | cons d rest =>
      have hb : 1 ≤ base := by
        have := h d (by simp)
        omega
      have hv := val_allmax base hb (d :: rest) hmax
      simp only [rank, List.length_replicate, val_replicate_zero, List.length_cons] at *
      simp only [geom]
      omega

-- Facts about the iteration loop.

theorem rangeIter_nil (ivs : List Interval) (fuel : Nat) (cur stop : List Nat)
    (h : colLe cur stop = false) : rangeIter ivs fuel cur stop = [] := by
  cases fuel with
  | zero => rfl
  | succ n => simp [rangeIter, h]

theorem rangeIter_length (ivs : List Interval) :
    ∀ fuel : Nat, ∀ cur stop : List Nat,
    (∀ d ∈ cur, d < indexMapLen ivs) → (∀ d ∈ stop, d < indexMapLen ivs) →
    1 ≤ indexMapLen ivs →
    rank (indexMapLen ivs) cur ≤ rank (indexMapLen ivs) stop →
    rank (indexMapLen ivs) stop + 1 - rank (indexMapLen ivs) cur ≤ fuel →
    (rangeIter ivs fuel cur stop).length =
      rank (indexMapLen ivs) stop + 1 - rank (indexMapLen ivs) cur := by
  intro fuel
  induction fuel with
  | zero =>
    intro cur stop _ _ _ hle hfuel
    omega
  | succ n ih =>
    intro cur stop hc hs hb hle hfuel
    have hcole : colLe cur stop = true :=
      (colLe_iff_rank (indexMapLen ivs) cur stop hc hs).mpr hle
    rw [rangeIter, if_pos hcole, List.length_cons]
    have hrinc := rank_inc (indexMapLen ivs) cur hc
    have hvinc : ∀ d ∈ inc (indexMapLen ivs) cur, d < indexMapLen ivs :=
      inc_valid (indexMapLen ivs) cur hc hb
    by_cases heq : rank (indexMapLen ivs) cur = rank (indexMapLen ivs) stop
    · have hnle : ¬ (colLe (inc (indexMapLen ivs) cur) stop = true) := fun hcontra => by
        have := (colLe_iff_rank (indexMapLen ivs) _ stop hvinc hs).mp hcontra
        omega
      rw [rangeIter_nil ivs n _ _ (Bool.eq_false_iff.mpr hnle)]
      simp only [List.length_nil]
      omega
    · rw [ih (inc (indexMapLen ivs) cur) stop hvinc hs hb (by omega) (by omega)]
      omega

-- Facts about endpoint collections.

theorem makeCollection_length (ivs : List Interval) (v : List Nat) :
    (makeCollection ivs v).length = v.length := by
  simp [makeCollection]

theorem makeCollection_valid (ivs : List Interval) (v : List Nat)
    (h : ∀ c ∈ v, c ∈ mapChars ivs) :
    ∀ d ∈ makeCollection ivs v, d < indexMapLen ivs := by
  intro d hd
  simp only [makeCollection, List.mem_reverse, List.mem_map] at hd
  obtain ⟨c, hc, rfl⟩ := hd
  exact List.indexOf_lt_length.mpr (h c hc)

theorem isValidEndpoint_iff (ivs : List Interval) (v : List Nat) :
    isValidEndpoint ivs v = true ↔ 0 < v.length ∧ ∀ c ∈ v, c ∈ mapChars ivs := by
  simp [isValidEndpoint]

-- The width sum of the closed-form length formula.

theorem geom_add_widthSum (base : Nat) :
    ∀ k lo : Nat, geom base lo + widthSum base lo (lo + k) = geom base (lo + k) := by
  intro k
  induction k with
  | zero =>
    intro lo
    simp [widthSum]
  | succ k ih =>
    intro lo
    have h1 : lo + (k + 1) - lo = k + 1 := by omega
    simp only [widthSum, h1, List.range'_succ, List.map_cons, List.sum_cons]
    have h2 := ih (lo + 1)
    simp only [widthSum] at h2
    have h3 : lo + 1 + k - (lo + 1) = k := by omega
    rw [h3] at h2
    have h4 : geom base (lo + 1) = geom base lo + base ^ lo := rfl
    have h5 : lo + (k + 1) = lo + 1 + k := by omega
    rw [h5]
    omega

-- Facts about the overlap detections.

theorem populateFailsAux_of_mem (c : Nat) :
    ∀ (l seen : List Nat), c ∈ seen → c ∈ l → populateFailsAux seen l = true := by
  intro l
  induction l with
  | nil =>
    intro seen _ hl
    simp at hl
  | cons d rest ih =>
    intro seen hseen hl
    rw [populateFailsAux]
    by_cases hd : d ∈ seen
    · rw [if_pos hd]
    · rw [if_neg hd]
      rcases List.mem_cons.mp hl with h1 | h1
      · exact absurd (h1 ▸ hseen) hd
      · exact ih (d :: seen) (by simp [hseen]) h1

theorem populateFailsAux_of_dup (c : Nat) :
    ∀ (pre rest seen : List Nat), c ∈ rest →
    populateFailsAux seen (pre ++ c :: rest) = true := by
  intro pre
  induction pre with
  | nil =>
    intro rest seen hrest
    rw [List.nil_append, populateFailsAux]
    by_cases hc : c ∈ seen
    · rw [if_pos hc]
    · rw [if_neg hc]
      exact populateFailsAux_of_mem c rest (c :: seen) (by simp) hrest
  | cons d pre ih =>
    intro rest seen hrest
    rw [List.cons_append, populateFailsAux]
    by_cases hd : d ∈ seen
    · rw [if_pos hd]
    · rw [if_neg hd]
      exact ih rest (d :: seen) hrest

theorem mapChars_append (l1 l2 : List Interval) :
    mapChars (l1 ++ l2) = mapChars l1 ++ mapChars l2 := by
  simp [mapChars]

theorem mapChars_cons (iv : Interval) (l : List Interval) :
    mapChars (iv :: l) = intervalChars iv ++ mapChars l := by
  simp [mapChars]

theorem mem_intervalChars (iv : Interval) (c : Nat) :
    c ∈ intervalChars iv ↔ iv.start ≤ c ∧ c ≤ iv.stop := by
  rw [intervalChars, List.mem_range'_1]
  omega

theorem lazyOverlapDetected_append (l1 l2 : List Interval)
    (h : lazyOverlapDetected l2 = true) :
    lazyOverlapDetected (l1 ++ l2) = true := by
  induction l1 with
  | nil => simpa using h
  | cons iv rest ih =>
    rw [List.cons_append, lazyOverlapDetected, ih, Bool.or_true]

theorem lazyOverlapDetected_head (iv : Interval) (rest : List Interval)
    (b : Interval) (hb : b ∈ rest) (hint : intersects iv b = true) :
    lazyOverlapDetected (iv :: rest) = true := by
  rw [lazyOverlapDetected]
  have : rest.any (fun other => intersects iv other) = true :=
    List.any_eq_true.mpr ⟨b, hb, hint⟩
  rw [this, Bool.true_or]

-- Claim theorems.

/-- Claim C1, counterexample to the claim as stated: for the character map
built from the intervals `c-c`, `b-b`, `a-a` (in that order), the range
from `"a"` to `"c"` is constructed without error, its closed-form length
is `-1`, yet exhausting the iterator yields no element at all: the
closed-form length does not equal the iteration count for every range
whose construction succeeds. -/
theorem range_length_iteration_disagree_cex :
    rangeInitOk [⟨ElementKind.charKind, 99, 99⟩, ⟨ElementKind.charKind, 98, 98⟩,
        ⟨ElementKind.charKind, 97, 97⟩] [97] [99] = true ∧
    rangeLen [⟨ElementKind.charKind, 99, 99⟩, ⟨ElementKind.charKind, 98, 98⟩,
        ⟨ElementKind.charKind, 97, 97⟩] [97] [99] = -1 ∧
    rangeIter [⟨ElementKind.charKind, 99, 99⟩, ⟨ElementKind.charKind, 98, 98⟩,
        ⟨ElementKind.charKind, 97, 97⟩] 10
      (makeCollection [⟨ElementKind.charKind, 99, 99⟩, ⟨ElementKind.charKind, 98, 98⟩,
        ⟨ElementKind.charKind, 97, 97⟩] [97])
      (makeCollection [⟨ElementKind.charKind, 99, 99⟩, ⟨ElementKind.charKind, 98, 98⟩,
        ⟨ElementKind.charKind, 97, 97⟩] [99]) = [] ∧
    (-1 : Int) ≠ 0 := by
  refine ⟨by decide, by decide, by decide, by decide⟩

/-- Claim C1 (amended): for every range whose construction succeeds and
whose start counter does not exceed the end counter in the counter
ordering (the per-position map-index comparison the iterator itself
uses), the closed-form `__len__` equals the number of elements the
iteration loop produces; the loop terminates on its own, the count being
the same for every sufficiently large fuel bound. -/
theorem range_length_agrees_with_iteration
    (ivs : List Interval) (start stop : List Nat) (fuel : Nat)
    (hok : rangeInitOk ivs start stop = true)
    (hdir : colLe (makeCollection ivs start) (makeCollection ivs stop) = true)
    (hfuel : rank (indexMapLen ivs) (makeCollection ivs stop) + 1
        - rank (indexMapLen ivs) (makeCollection ivs start) ≤ fuel) :
    rangeLen ivs start stop =
      ((rangeIter ivs fuel (makeCollection ivs start)
          (makeCollection ivs stop)).length : Int) := by
  simp only [rangeInitOk, Bool.and_eq_true] at hok
  obtain ⟨⟨hstart, hstop⟩, hdirok⟩ := hok
  rw [Bool.not_eq_true'] at hdirok
  obtain ⟨hslen, hsmem⟩ := (isValidEndpoint_iff ivs start).mp hstart
  obtain ⟨helen, hemem⟩ := (isValidEndpoint_iff ivs stop).mp hstop
  have hb : 1 ≤ indexMapLen ivs := by
    obtain ⟨c, hc⟩ := List.exists_mem_of_length_pos hslen
    exact List.length_pos.mpr (List.ne_nil_of_mem (hsmem c hc))
  have hSvalid := makeCollection_valid ivs start hsmem
  have hEvalid := makeCollection_valid ivs stop hemem
  have hrank := (colLe_iff_rank (indexMapLen ivs) _ _ hSvalid hEvalid).mp hdir
  have hcount := rangeIter_length ivs fuel _ _ hSvalid hEvalid hb hrank hfuel
  rw [hcount]
  have hlenle : start.length ≤ stop.length := by
    simp only [directionWrong, Bool.or_eq_false_iff, decide_eq_false_iff_not] at hdirok
    have := hdirok.1
    omega
  have hws := geom_add_widthSum (indexMapLen ivs) (stop.length - start.length) start.length
  rw [show start.length + (stop.length - start.length) = stop.length by omega] at hws
  have hrs : rank (indexMapLen ivs) (makeCollection ivs start)
      = geom (indexMapLen ivs) start.length
        + idxVal (indexMapLen ivs) (makeCollection ivs start) := by
    rw [rank, makeCollection_length]
  have hre : rank (indexMapLen ivs) (makeCollection ivs stop)
      = geom (indexMapLen ivs) stop.length
        + idxVal (indexMapLen ivs) (makeCollection ivs stop) := by
    rw [rank, makeCollection_length]
  rw [rangeLen]
  omega

/-- Witness for C1 (amended): over the two-symbol map `0-1`, the range
from `"0"` to `"10"` has closed-form length 5 and the loop yields
exactly 5 elements. -/
theorem range_length_agrees_with_iteration_witness :
    rangeInitOk [⟨ElementKind.charKind, 48, 49⟩] [48] [49, 48] = true ∧
    colLe (makeCollection [⟨ElementKind.charKind, 48, 49⟩] [48])
      (makeCollection [⟨ElementKind.charKind, 48, 49⟩] [49, 48]) = true ∧
    rangeLen [⟨ElementKind.charKind, 48, 49⟩] [48] [49, 48] =
      ((rangeIter [⟨ElementKind.charKind, 48, 49⟩] 5
          (makeCollection [⟨ElementKind.charKind, 48, 49⟩] [48])
          (makeCollection [⟨ElementKind.charKind, 48, 49⟩] [49, 48])).length : Int) :=
  ⟨by decide, by decide,
    range_length_agrees_with_iteration [⟨ElementKind.charKind, 48, 49⟩] [48] [49, 48] 5
      (by decide) (by decide) (by decide)⟩

/-- Claim C2, counterexample to the claim as stated: for the map built
from the intervals `b-b`, `a-a` (in that order), the endpoints `"a"` and
`"b"` have equal length and `"a"` comes strictly after `"b"` in the
per-position comparison of map-assigned indices, yet construction does
not raise `InvalidRangeDirection` — it succeeds, because the source
compares the raw symbols natively. -/
theorem invalid_direction_cex :
    specIndexAfter [⟨ElementKind.charKind, 98, 98⟩, ⟨ElementKind.charKind, 97, 97⟩]
      [97] [98] = true ∧
    rangeRaisesInvalidDirection [⟨ElementKind.charKind, 98, 98⟩,
      ⟨ElementKind.charKind, 97, 97⟩] [97] [98] = false ∧
    rangeInitOk [⟨ElementKind.charKind, 98, 98⟩, ⟨ElementKind.charKind, 97, 97⟩]
      [97] [98] = true := by
  refine ⟨by decide, by decide, by decide⟩

/-- Claim C2 (amended): for every pair of equal-length endpoint strings
valid in the map, construction fails with `InvalidRangeDirection`
exactly when start is after end under per-position comparison of the
raw symbols' codepoints (Python's native lexicographic ordering), not
the map-assigned indices; and a shorter start is never rejected against
a longer end. -/
theorem invalid_direction_native_order (ivs : List Interval) (start stop : List Nat)
    (hs : isValidEndpoint ivs start = true) (he : isValidEndpoint ivs stop = true) :
    (start.length = stop.length →
      (rangeRaisesInvalidDirection ivs start stop = true ↔ tupleLt stop start = true)) ∧
    (start.length < stop.length →
      rangeRaisesInvalidDirection ivs start stop = false) := by
  constructor
  · intro hlen
    simp [rangeRaisesInvalidDirection, hs, he, directionWrong, hlen]
  · intro hlen
    have h1 : decide (stop.length < start.length) = false := by
      simp only [decide_eq_false_iff_not]
      omega
    have h2 : (start.length == stop.length) = false := by
      simp only [beq_eq_false_iff_ne, ne_eq]
      omega
    simp [rangeRaisesInvalidDirection, hs, he, directionWrong, h1, h2]

/-- Witness for C2 (amended): with the digits map, `"1"` to `"0"` raises
`InvalidRangeDirection` (indeed `"0" < "1"` natively), and `"0"` to
`"19"` (shorter start) is not rejected for direction. -/
theorem invalid_direction_native_order_witness :
    ((1 : Nat) = 1 →
      (rangeRaisesInvalidDirection asciiDigitsIntervals [49] [48] = true ↔
        tupleLt [48] [49] = true)) ∧
    (rangeRaisesInvalidDirection asciiDigitsIntervals [49] [48] = true) ∧
    ((1 : Nat) < 2 → rangeRaisesInvalidDirection asciiDigitsIntervals [48] [49, 57] = false) :=
  ⟨fun _ => by
      have h := (invalid_direction_native_order asciiDigitsIntervals [49] [48]
        (by decide) (by decide)).1 (by decide)
      exact h,
    by decide,
    (invalid_direction_native_order asciiDigitsIntervals [48] [49, 57]
      (by decide) (by decide)).2⟩

/-- Claim C3, counterexample to the claim as stated: for a lazy map of
cardinality 2 (intervals passing the geometric overlap check) whose
caller-supplied lookup functions send every symbol to index 0 and every
index to symbol 0, the symbol 1 is accepted by `symbol_to_index` (it is
"in the map"), yet `index_to_symbol(symbol_to_index(1)) = 0 ≠ 1`: the
two lookups of a lazy `IndexMap` need not be mutually inverse. -/
theorem lazy_roundtrip_cex :
    lazyOverlapDetected [⟨ElementKind.charKind, 0, 1⟩] = false ∧
    indexMapLen [⟨ElementKind.charKind, 0, 1⟩] = 2 ∧
    lazySymbolToIndex 2 (fun _ => 0) 1 = some 0 ∧
    lazyIndexToSymbol 2 (fun _ => 0) 0 = some 0 ∧
    (0 : Nat) ≠ 1 := by
  refine ⟨by decide, by decide, rfl, rfl, by decide⟩

/-- Claim C3 (amended): for every eagerly constructed `IndexMap` (no
lookup functions; construction succeeded, so the chained enumeration has
no duplicates), the two lookups are mutually inverse: mapping a symbol
of the map to its index and back returns the symbol, and mapping an
index in `[0, cardinality)` to its symbol and back returns the index. -/
theorem eager_lookup_roundtrip (ivs : List Interval)
    (hnodup : (mapChars ivs).Nodup) :
    (∀ c ∈ mapChars ivs, indexToSymbol ivs (symbolToIndex ivs c) = c) ∧
    (∀ i : Nat, i < indexMapLen ivs → symbolToIndex ivs (indexToSymbol ivs i) = i) := by
  constructor
  · intro c hc
    have hlt : (mapChars ivs).indexOf c < (mapChars ivs).length :=
      List.indexOf_lt_length.mpr hc
    rw [indexToSymbol, symbolToIndex, List.getD_eq_getElem _ _ hlt]
    exact List.getElem_indexOf hlt
  · intro i hi
    rw [indexToSymbol, symbolToIndex, List.getD_eq_getElem _ _ hi]
    exact List.indexOf_getElem hnodup i hi

/-- Witness for C3 (amended): the digits map is duplicate-free, symbol
`"5"` (codepoint 53) round-trips through its index, and index 7
round-trips through its symbol. -/
theorem eager_lookup_roundtrip_witness :
    (mapChars asciiDigitsIntervals).Nodup ∧
    indexToSymbol asciiDigitsIntervals (symbolToIndex asciiDigitsIntervals 53) = 53 ∧
    symbolToIndex asciiDigitsIntervals (indexToSymbol asciiDigitsIntervals 7) = 7 :=
  ⟨by decide,
    (eager_lookup_roundtrip asciiDigitsIntervals (by decide)).1 53 (by decide),
    (eager_lookup_roundtrip asciiDigitsIntervals (by decide)).2 7 (by decide)⟩

/-- Claim C4: for counters over the same base whose digits all lie in
`[0, base)`, a counter with fewer digits is strictly less regardless of
the digits' values, and counters with equal digit counts compare under
`<`, `<=` and `==` exactly as their `__index__` integer values do. -/
theorem counter_comparisons (a b : IncrementableIndexCollection)
    (hbase : a.base = b.base)
    (ha : ∀ d ∈ a.inverted_indices, d < a.base)
    (hb : ∀ d ∈ b.inverted_indices, d < b.base) :
    (a.size < b.size → a.lt b = true) ∧
    (a.size = b.size →
      ((a.lt b = true ↔ a.index < b.index) ∧
       (a.le b = true ↔ a.index ≤ b.index) ∧
       (a.eq b = true ↔ a.index = b.index))) := by
  obtain ⟨la, ba⟩ := a
  obtain ⟨lb, bb⟩ := b
  have hbase' : ba = bb := hbase
  subst hbase'
  simp only [IncrementableIndexCollection.size, IncrementableIndexCollection.lt,
    IncrementableIndexCollection.le, IncrementableIndexCollection.eq,
    IncrementableIndexCollection.index, IncrementableIndexCollection.indices] at *
  constructor
  · intro hlen
    rw [if_pos hlen]
  · intro hlen
    have htup := tupleLt_iff ba la.reverse lb.reverse (by simp [hlen])
      (fun d hd => ha d (List.mem_reverse.mp hd))
      (fun d hd => hb d (List.mem_reverse.mp hd))
    rw [List.reverse_reverse, List.reverse_reverse] at htup
    have hltiff : (if la.length < lb.length then true
        else (la.length == lb.length && tupleLt la.reverse lb.reverse)) = true
        ↔ idxVal ba la < idxVal ba lb := by
      rw [if_neg (by omega)]
      simp only [hlen, beq_self_eq_true, Bool.true_and]
      exact htup
    have heqiff : ((ba == ba) && (la.reverse == lb.reverse)) = true
        ↔ idxVal ba la = idxVal ba lb := by
      simp only [beq_self_eq_true, Bool.true_and, beq_iff_eq, List.reverse_inj]
      constructor
      · rintro rfl
        rfl
      · intro h
        exact val_inj ba la lb hlen ha hb h
    refine ⟨hltiff, ?_, heqiff⟩
    rw [Bool.or_eq_true]
    constructor
    · rintro (h | h)
      · exact Nat.le_of_lt (hltiff.mp h)
      · exact Nat.le_of_eq (heqiff.mp h)
    · intro h
      rcases Nat.eq_or_lt_of_le h with h1 | h1
      · exact Or.inr (heqiff.mpr h1)
      · exact Or.inl (hltiff.mpr h1)

/-- Witness for C4: over base 10, the one-digit counter `[3]` and the
two-digit counter whose digits are `1, 2` (stored inverted as `[2, 1]`)
instantiate both conjuncts; a second equal-size pair `[3]` vs `[7]`
exercises the value comparisons. -/
theorem counter_comparisons_witness :
    (((⟨[3], 10⟩ : IncrementableIndexCollection).size
        < (⟨[2, 1], 10⟩ : IncrementableIndexCollection).size →
      (⟨[3], 10⟩ : IncrementableIndexCollection).lt ⟨[2, 1], 10⟩ = true) ∧
     ((⟨[3], 10⟩ : IncrementableIndexCollection).size
        = (⟨[2, 1], 10⟩ : IncrementableIndexCollection).size →
      (((⟨[3], 10⟩ : IncrementableIndexCollection).lt ⟨[2, 1], 10⟩ = true ↔
          (⟨[3], 10⟩ : IncrementableIndexCollection).index
            < (⟨[2, 1], 10⟩ : IncrementableIndexCollection).index) ∧
       ((⟨[3], 10⟩ : IncrementableIndexCollection).le ⟨[2, 1], 10⟩ = true ↔
          (⟨[3], 10⟩ : IncrementableIndexCollection).index
            ≤ (⟨[2, 1], 10⟩ : IncrementableIndexCollection).index) ∧
       ((⟨[3], 10⟩ : IncrementableIndexCollection).eq ⟨[2, 1], 10⟩ = true ↔
          (⟨[3], 10⟩ : IncrementableIndexCollection).index
            = (⟨[2, 1], 10⟩ : IncrementableIndexCollection).index)))) ∧
    ((⟨[3], 10⟩ : IncrementableIndexCollection).size
        = (⟨[7], 10⟩ : IncrementableIndexCollection).size →
      (((⟨[3], 10⟩ : IncrementableIndexCollection).lt ⟨[7], 10⟩ = true ↔
          (⟨[3], 10⟩ : IncrementableIndexCollection).index
            < (⟨[7], 10⟩ : IncrementableIndexCollection).index) ∧
       ((⟨[3], 10⟩ : IncrementableIndexCollection).le ⟨[7], 10⟩ = true ↔
          (⟨[3], 10⟩ : IncrementableIndexCollection).index
            ≤ (⟨[7], 10⟩ : IncrementableIndexCollection).index) ∧
       ((⟨[3], 10⟩ : IncrementableIndexCollection).eq ⟨[7], 10⟩ = true ↔
          (⟨[3], 10⟩ : IncrementableIndexCollection).index
            = (⟨[7], 10⟩ : IncrementableIndexCollection).index))) :=
  ⟨counter_comparisons ⟨[3], 10⟩ ⟨[2, 1], 10⟩ (by decide) (by decide) (by decide),
   (counter_comparisons ⟨[3], 10⟩ ⟨[7], 10⟩ (by decide) (by decide) (by decide)).2⟩

/-- Claim C5: for every counter whose digits lie in `[0, base)`, the
state after one `increment` is strictly greater than the state before it
under the counter ordering, and the digit count never decreases. -/
theorem increment_strictly_increases (k : IncrementableIndexCollection)
    (h : ∀ d ∈ k.inverted_indices, d < k.base) :
    k.lt k.increment = true ∧ k.size ≤ k.increment.size := by
  obtain ⟨l, base⟩ := k
  simp only [IncrementableIndexCollection.increment, IncrementableIndexCollection.lt,
    IncrementableIndexCollection.size, IncrementableIndexCollection.indices] at *
  cases hmax : allMaxDigits base l with
  | true =>
    rw [inc_allmax base l hmax]
    constructor
    · rw [if_pos (by simp)]
    · simp
  | false =>
    obtain ⟨hlen, hval, hvalid⟩ := inc_notmax base l h hmax
    have htup := tupleLt_iff base l.reverse (inc base l).reverse (by simp [hlen])
      (fun d hd => h d (List.mem_reverse.mp hd))
      (fun d hd => hvalid d (List.mem_reverse.mp hd))
    rw [List.reverse_reverse, List.reverse_reverse, hval] at htup
    constructor
    · rw [if_neg (by omega)]
      simp only [hlen, beq_self_eq_true, Bool.true_and]
      exact htup.mpr (by omega)
    · omega

/-- Witness for C5: incrementing the base-2 counter with digits `[1]`
yields a strictly greater counter with at least as many digits. -/
theorem increment_strictly_increases_witness :
    (⟨[1], 2⟩ : IncrementableIndexCollection).lt
      (⟨[1], 2⟩ : IncrementableIndexCollection).increment = true ∧
    (⟨[1], 2⟩ : IncrementableIndexCollection).size
      ≤ (⟨[1], 2⟩ : IncrementableIndexCollection).increment.size :=
  increment_strictly_increases ⟨[1], 2⟩ (by decide)

/-- Claim C6: incrementing a counter whose every digit equals `base - 1`
yields a counter with one more digit, all of them zero. -/
theorem increment_overflow_all_zero (k : IncrementableIndexCollection)
    (h : allMaxDigits k.base k.inverted_indices = true) :
    k.increment.inverted_indices = List.replicate (k.size + 1) 0 ∧
    k.increment.size = k.size + 1 := by
  obtain ⟨l, base⟩ := k
  simp only [IncrementableIndexCollection.increment, IncrementableIndexCollection.size] at *
  refine ⟨inc_allmax base l h, ?_⟩
  rw [inc_allmax base l h]
  simp

/-- Witness for C6: in base 26 the two-digit counter for `"zz"` (both
digits 25) increments to the three-digit all-zero counter for `"aaa"`. -/
theorem increment_overflow_all_zero_witness :
    (⟨[25, 25], 26⟩ : IncrementableIndexCollection).increment.inverted_indices
      = List.replicate 3 0 ∧
    (⟨[25, 25], 26⟩ : IncrementableIndexCollection).increment.size = 3 :=
  increment_overflow_all_zero ⟨[25, 25], 26⟩ (by decide)

/-- Claim C7: whenever two intervals of an interval list share a symbol,
map construction fails with `OverlappingIntervals` in both modes: the
eager population scan hits a duplicate insertion, and the lazy pairwise
interval-geometry check detects an intersection. -/
theorem overlapping_intervals_fail (l1 l2 l3 : List Interval) (a b : Interval) (c : Nat)
    (_hkind : ∀ iv ∈ l1 ++ a :: (l2 ++ b :: l3), iv.kind = a.kind)
    (hca : c ∈ intervalChars a) (hcb : c ∈ intervalChars b) :
    populateMapsFails (l1 ++ a :: (l2 ++ b :: l3)) = true ∧
    lazyOverlapDetected (l1 ++ a :: (l2 ++ b :: l3)) = true := by
  constructor
  · rw [populateMapsFails, mapChars_append, mapChars_cons, mapChars_append, mapChars_cons]
    obtain ⟨s, t, hst⟩ := List.append_of_mem hca
    rw [hst]
    have hcrest : c ∈ t ++ (mapChars l2 ++ (intervalChars b ++ mapChars l3)) := by
      simp [hcb]
    have hassoc :
        mapChars l1 ++ (s ++ c :: t ++ (mapChars l2 ++ (intervalChars b ++ mapChars l3)))
          = (mapChars l1 ++ s)
            ++ (c :: (t ++ (mapChars l2 ++ (intervalChars b ++ mapChars l3)))) := by
      simp [List.append_assoc]
    rw [hassoc]
    exact populateFailsAux_of_dup c (mapChars l1 ++ s)
      (t ++ (mapChars l2 ++ (intervalChars b ++ mapChars l3))) [] hcrest
  · apply lazyOverlapDetected_append
    apply lazyOverlapDetected_head a (l2 ++ b :: l3) b (by simp)
    have h1 := (mem_intervalChars a c).mp hca
    have h2 := (mem_intervalChars b c).mp hcb
    simp only [intersects, decide_eq_true_eq]
    omega

/-- Witness for C7: the character intervals spanning codepoints `[0, 10]`
and `[5, 15]` share the symbol 5 and are rejected in both modes. -/
theorem overlapping_intervals_fail_witness :
    (∀ iv ∈ ([] : List Interval) ++ (⟨ElementKind.charKind, 0, 10⟩ : Interval)
        :: (([] : List Interval) ++ (⟨ElementKind.charKind, 5, 15⟩ : Interval) :: []),
      iv.kind = ElementKind.charKind) ∧
    populateMapsFails ([] ++ ⟨ElementKind.charKind, 0, 10⟩
      :: ([] ++ ⟨ElementKind.charKind, 5, 15⟩ :: [])) = true ∧
    lazyOverlapDetected ([] ++ ⟨ElementKind.charKind, 0, 10⟩
      :: ([] ++ ⟨ElementKind.charKind, 5, 15⟩ :: [])) = true :=
  ⟨by decide,
    (overlapping_intervals_fail [] [] [] ⟨ElementKind.charKind, 0, 10⟩
      ⟨ElementKind.charKind, 5, 15⟩ 5 (by decide) (by decide) (by decide)).1,
    (overlapping_intervals_fail [] [] [] ⟨ElementKind.charKind, 0, 10⟩
      ⟨ElementKind.charKind, 5, 15⟩ 5 (by decide) (by decide) (by decide)).2⟩

/-- Claim C8: `character_range("0", "19")` over the `ascii_digits` map
constructs successfully and yields exactly the 30 strings `"0".."9"`,
`"00".."09"`, `"10".."19"` in that order (as codepoint lists), and its
closed-form length is 30. -/
theorem digits_range_scenario :
    rangeInitOk asciiDigitsIntervals [48] [49, 57] = true ∧
    rangeIter asciiDigitsIntervals 31 (makeCollection asciiDigitsIntervals [48])
        (makeCollection asciiDigitsIntervals [49, 57]) =
      [[48], [49], [50], [51], [52], [53], [54], [55], [56], [57],
       [48, 48], [48, 49], [48, 50], [48, 51], [48, 52],
       [48, 53], [48, 54], [48, 55], [48, 56], [48, 57],
       [49, 48], [49, 49], [49, 50], [49, 51], [49, 52],
       [49, 53], [49, 54], [49, 55], [49, 56], [49, 57]] ∧
    rangeLen asciiDigitsIntervals [48] [49, 57] = 30 := by
  refine ⟨by decide, by decide, by decide⟩

/-- Claim C9: for every map and integer `i`, the `in` test returns `True`
exactly when `0 <= i < cardinality`; negative or too-large integers are
reported absent (the test is total, it raises nothing). -/
theorem int_membership (kind : ElementKind) (ivs : List Interval) (i : Int) :
    mapContains kind ivs (.pyInt i) = true ↔ 0 ≤ i ∧ i < (indexMapLen ivs : Int) := by
  cases kind <;> simp [mapContains]

/-- Claim C10: for every interval, the `in` test returns `True` exactly
on single symbols of the interval's element kind lying between `start`
and `end`; every other value (wrong kind or wrong length) totally yields
`False` rather than an exception. -/
theorem interval_membership (iv : Interval) (v : PyValue) :
    intervalContains iv v = true ↔
      ∃ c : Nat, v = mkSingleSymbol iv.kind c ∧ iv.start ≤ c ∧ c ≤ iv.stop := by
  obtain ⟨k, s, e⟩ := iv
  cases k <;> cases v <;> simp only [intervalContains, mkSingleSymbol] <;>
    try (simp; done)
  all_goals
    rename_i sq
    rcases sq with _ | ⟨c0, _ | ⟨c1, rest⟩⟩
    · simp
    · simp
    · have hcond : ¬ ((c0 :: c1 :: rest).length = 1) := by simp
      rw [if_neg hcond]
      simp

end CharacterRange
